import Mathlib

/-!
Verification of the mini-c compiler core: a shallow embedding of the
syntax tree, the scoped symbol table, the semantic analyzer, the IR
lowering pass, the TAC emitter and the x64 emitter, together with
theorems settling the specification claims.

Modelling conventions:
* Rust `i64`/`usize` values are modelled as `Int`/`Nat`; none of the
  verified code paths perform wrapping arithmetic on them.
* `f64` payloads are carried opaquely as raw bit patterns (`F64`); the
  compiler never computes with float values, it only stores them, and no
  claim depends on their decimal rendering.
* `HashMap` fields are modelled as association lists in first-insertion
  order; every property proved about them is independent of iteration
  order.
* Rust `&mut Vec` accumulators (diagnostics, instruction buffers) are
  modelled in delta style: each translated function returns the list of
  elements it pushes, and callers append, preserving push order.
* The Rust emitter's `unwrap` on stack-slot lookups is modelled by
  returning `Option`: `none` corresponds to a panic.
-/

namespace MiniC

/-- Association-list lookup by key (models `HashMap::get`). -/
def lookupName {α : Type} : List (String × α) → String → Option α
  | [], _ => none
  | (k, v) :: rest, n => if k = n then some v else lookupName rest n

/-! ## AST (`ast.rs`) -/

/-- `ast.rs` `Type`: the basic types. -/
inductive Ty where
  | int
  | float
  | char
  | void
deriving DecidableEq, Repr

/-- Raw bit pattern of an `f64`; the compiler only stores these. -/
structure F64 where
  bits : Nat
deriving DecidableEq, Repr

/-- `ast.rs` `UnaryOp`. -/
inductive UnaryOp where
  | neg
  | not
deriving DecidableEq, Repr

/-- `ast.rs` `BinaryOp`. -/
inductive BinaryOp where
  | add
  | sub
  | mul
  | div
deriving DecidableEq, Repr

/-- `ast.rs` `Expr`. -/
inductive Expr where
  | number (n : Int)
  | floatNumber (f : F64)
  | charLiteral (c : Char)
  | stringLiteral (s : String)
  | ident (name : String)
  | unary (op : UnaryOp) (e : Expr)
  | binary (op : BinaryOp) (left right : Expr)
  | assign (name : String) (value : Expr)
  | call (name : String) (args : List Expr)

/-- `ast.rs` `Stmt`. -/
inductive Stmt where
  | varDecl (ty : Ty) (name : String) (value : Expr)
  | exprStmt (e : Expr)
  | ret (e : Expr)

/-- `ast.rs` `Block`. -/
structure Block where
  stmts : List Stmt

/-- `ast.rs` `Function`. -/
structure Function where
  name : String
  returnType : Ty
  params : List (Ty × String)
  body : Block

/-- `ast.rs` `Program`. -/
structure Program where
  functions : List Function

/-! ## IR (`ir.rs`) -/

/-- `ir.rs` `Operand`. -/
inductive Operand where
  | temp (t : String)
  | objLocal (n : String)
  | constInt (i : Int)
  | constFloat (f : F64)
  | constString (s : String)
deriving DecidableEq, Repr

/-- `ir.rs` `Instr`. -/
inductive Instr where
  | storeLocal (name : String) (src : Operand)
  | call (dest : Option String) (name : String) (args : List Operand)
  | ret (src : Option Operand)
  | binOp (dest : String) (op : String) (left : Operand) (right : Operand)
deriving DecidableEq, Repr

/-- `ir.rs` `FunctionIR`. -/
structure FunctionIR where
  name : String
  params : List String
  instrs : List Instr
deriving DecidableEq, Repr

/-! ## Lowering (`lower.rs`)

`LowerState.tmp` is the `Nat` threaded through; `gen_tmp` returns
`"t" ++ toString id` and increments.  The instruction buffer is modelled
in delta style: each call returns the instructions it pushes, in push
order. -/

/-- `lower.rs` `LowerState::gen_tmp`: the name of the next temporary. -/
def genTmp (id : Nat) : String := "t" ++ toString id

mutual

/-- `lower.rs` `lower_expr`: returns the operand, the next temporary
counter and the list of instructions pushed (in order). -/
def lowerExpr : Expr → Nat → Operand × Nat × List Instr
  | .number n, tmp => (.constInt n, tmp, [])
  | .floatNumber f, tmp => (.constFloat f, tmp, [])
  | .charLiteral c, tmp => (.constInt (Int.ofNat c.toNat), tmp, [])
  | .stringLiteral s, tmp => (.constString s, tmp, [])
  | .ident name, tmp => (.objLocal name, tmp, [])
  | .unary op e, tmp =>
    let r := lowerExpr e tmp
    let dest := genTmp r.2.1
    let opname := match op with
      | .neg => "neg"
      | .not => "not"
    (.temp dest, r.2.1 + 1, r.2.2 ++ [.binOp dest opname r.1 (.constInt 0)])
  | .binary op l r, tmp =>
    let rl := lowerExpr l tmp
    let rr := lowerExpr r rl.2.1
    let dest := genTmp rr.2.1
    let opname := match op with
      | .add => "+"
      | .sub => "-"
      | .mul => "*"
      | .div => "/"
    (.temp dest, rr.2.1 + 1,
      rl.2.2 ++ rr.2.2 ++ [.binOp dest opname rl.1 rr.1])
  | .assign name value, tmp =>
    let rv := lowerExpr value tmp
    (.objLocal name, rv.2.1, rv.2.2 ++ [.storeLocal name rv.1])
  | .call name args, tmp =>
    let ra := lowerArgs args tmp
    let dest := genTmp ra.2.1
    (.temp dest, ra.2.1 + 1, ra.2.2 ++ [.call (some dest) name ra.1])

/-- Lowers `Call` arguments left to right (the `for a in args` loop). -/
def lowerArgs : List Expr → Nat → List Operand × Nat × List Instr
  | [], tmp => ([], tmp, [])
  | a :: rest, tmp =>
    let r1 := lowerExpr a tmp
    let r2 := lowerArgs rest r1.2.1
    (r1.1 :: r2.1, r2.2.1, r1.2.2 ++ r2.2.2)

end

/-- `lower.rs` `lower_program` per-statement step. -/
def lowerStmt : Stmt → Nat → Nat × List Instr
  | .varDecl _ name value, tmp =>
    let rv := lowerExpr value tmp
    (rv.2.1, rv.2.2 ++ [.storeLocal name rv.1])
  | .exprStmt e, tmp =>
    let re := lowerExpr e tmp
    (re.2.1, re.2.2)
  | .ret e, tmp =>
    let re := lowerExpr e tmp
    (re.2.1, re.2.2 ++ [.ret (some re.1)])

/-- `lower.rs` `lower_program`, restricted to one function: a fresh
temporary counter, statements lowered in order, instructions appended. -/
def lowerFunction (f : Function) : FunctionIR :=
  let r := f.body.stmts.foldl
    (fun acc stmt =>
      let rs := lowerStmt stmt acc.1
      (rs.1, acc.2 ++ rs.2)) (0, [])
  ⟨f.name, f.params.map (fun p => p.2), r.2⟩

/-- `lower.rs` `lower_program`. -/
def lowerProgram (p : Program) : List FunctionIR :=
  p.functions.map lowerFunction

/-! ## TAC emitter (`codegen_tac.rs`) -/

/-- `codegen_tac.rs` `fmt_operand`.  Float constants render their bit
pattern (decimal float formatting is out of the verified scope). -/
def fmtOperand : Operand → String
  | .temp t => t
  | .objLocal n => "%" ++ n
  | .constInt i => toString i
  | .constFloat f => toString f.bits
  | .constString s => "\"" ++ s ++ "\""

/-- One body line of the TAC rendering (the `match instr` in
`codegen_tac.rs` `emit_function`), without the trailing newline. -/
def tacLine : Instr → String
  | .storeLocal name src => "  MOV %" ++ name ++ ", " ++ fmtOperand src
  | .call dest name args =>
    let a := String.intercalate ", " (args.map fmtOperand)
    match dest with
    | some d => "  " ++ d ++ " = CALL " ++ name ++ "(" ++ a ++ ")"
    | none => "  CALL " ++ name ++ "(" ++ a ++ ")"
  | .ret src =>
    match src with
    | some s => "  RET " ++ fmtOperand s
    | none => "  RET"
  | .binOp dest op left right =>
    "  " ++ dest ++ " = " ++ fmtOperand left ++ " " ++ op ++ " " ++ fmtOperand right

/-- `codegen_tac.rs` `emit_function`. -/
def emitFunctionTAC (f : FunctionIR) : String :=
  let header := ".func " ++ f.name ++ "(" ++ String.intercalate ", " f.params ++ ")\n"
  let body := f.instrs.foldl (fun out i => out ++ tacLine i ++ "\n") ""
  header ++ "\x7b\n" ++ body ++ "\x7d\n"

/-! ## x64 emitter (`codegen_x64_windows.rs`) -/

/-- UTF-8 encoding of a character (the bytes `crc32fast::hash` sees). -/
def charUtf8 (c : Char) : List Nat :=
  let n := c.toNat
  if n < 0x80 then [n]
  else if n < 0x800 then
    [0xC0 ||| (n >>> 6), 0x80 ||| (n &&& 0x3F)]
  else if n < 0x10000 then
    [0xE0 ||| (n >>> 12), 0x80 ||| ((n >>> 6) &&& 0x3F), 0x80 ||| (n &&& 0x3F)]
  else
    [0xF0 ||| (n >>> 18), 0x80 ||| ((n >>> 12) &&& 0x3F),
     0x80 ||| ((n >>> 6) &&& 0x3F), 0x80 ||| (n &&& 0x3F)]

/-- UTF-8 bytes of a string. -/
def utf8Bytes (s : String) : List Nat := s.data.flatMap charUtf8

/-- One bit-step of the reflected CRC-32 (polynomial `0xEDB88320`). -/
def crc32Round (c : Nat) : Nat :=
  if c % 2 = 1 then (c >>> 1) ^^^ 0xEDB88320 else c >>> 1

/-- Fold one byte into the CRC-32 state (eight bit rounds). -/
def crc32Byte (c : Nat) (b : Nat) : Nat :=
  (List.range 8).foldl (fun acc _ => crc32Round acc) (c ^^^ b)

/-- `crc32fast::hash`: the standard CRC-32 (IEEE) of the string's bytes. -/
def crc32 (s : String) : Nat :=
  ((utf8Bytes s).foldl crc32Byte 0xFFFFFFFF) ^^^ 0xFFFFFFFF

/-- `codegen_x64_windows.rs` `find_label_for_string` (also the label
synthesized during pooling): `LSTR_` plus the decimal CRC-32. -/
def labelFor (s : String) : String := "LSTR_" ++ toString (crc32 s)

/-- The constant-string values one instruction feeds to the string pool:
`Call` arguments in order, then for `BinOp` the left and right operand. -/
def instrPooledStrings : Instr → List String
  | .call _ _ args => args.filterMap (fun a => match a with
    | .constString s => some s
    | _ => none)
  | .binOp _ _ left right =>
    [left, right].filterMap (fun a => match a with
      | .constString s => some s
      | _ => none)
  | _ => []

/-- All pooled string occurrences of a function, in scan order. -/
def pooledStrings (f : FunctionIR) : List String :=
  f.instrs.flatMap instrPooledStrings

/-- One step of the string-pooling scan:
`str_pool.entry(s).or_insert(lbl)`. -/
def poolStep (pool : List (String × String)) (s : String) :
    List (String × String) :=
  match lookupName pool s with
  | some _ => pool
  | none => pool ++ [(s, labelFor s)]

/-- The string-pooling scan of `emit_function`: insert each string value
on first sight with label `labelFor`.  The `HashMap` is modelled in
first-insertion order. -/
def strPool (f : FunctionIR) : List (String × String) :=
  (pooledStrings f).foldl poolStep []

/-- The names one instruction defines, for slot assignment:
`StoreLocal` targets, `BinOp` destinations, `Call` destinations. -/
def instrDefNames : Instr → List String
  | .storeLocal name _ => [name]
  | .binOp dest _ _ _ => [dest]
  | .call (some d) _ _ => [d]
  | _ => []

/-- All names the slot pre-pass scans, in order: parameters first, then
each instruction's definition point. -/
def defNames (f : FunctionIR) : List String :=
  f.params ++ f.instrs.flatMap instrDefNames

/-- One step of the slot pre-pass: if the name has no slot yet, grow the
offset by 8 and append the binding. -/
def slotStep (st : Nat × List (String × Nat)) (n : String) :
    Nat × List (String × Nat) :=
  match lookupName st.2 n with
  | some _ => st
  | none => (st.1 + 8, st.2 ++ [(n, st.1 + 8)])

/-- The slot pre-pass of `emit_function`: final offset and slot map. -/
def buildSlots (f : FunctionIR) : Nat × List (String × Nat) :=
  (defNames f).foldl slotStep (0, [])

/-- The slot map of a function (insertion order). -/
def slotAssoc (f : FunctionIR) : List (String × Nat) := (buildSlots f).2

/-- The total stack offset after the slot pre-pass. -/
def totalOffset (f : FunctionIR) : Nat := (buildSlots f).1

/-- `emit_function` frame sizing: round the total offset up to a
multiple of 16, with a 32-byte floor. -/
def frameSize (f : FunctionIR) : Nat :=
  let fs := ((totalOffset f + 15) / 16) * 16
  if fs < 32 then 32 else fs

/-- `emit_load_operand`: load an operand into `rax`; `none` models the
`unwrap` panic on a missing stack slot. -/
def emitLoadOperand (op : Operand) (slots : List (String × Nat)) :
    Option String :=
  match op with
  | .temp t => (lookupName slots t).map
      (fun off => "mov rax, [rbp-" ++ toString off ++ "]\n")
  | .objLocal n => (lookupName slots n).map
      (fun off => "mov rax, [rbp-" ++ toString off ++ "]\n")
  | .constInt i => some ("mov rax, " ++ toString i ++ "\n")
  | .constFloat f => some ("; load float " ++ toString f.bits ++
      " into rax (not implemented)\nmov rax, 0\n")
  | .constString s => some ("lea rax, [rel " ++ labelFor s ++
      "] ; string " ++ s ++ "\n")

/-- `emit_load_operand_to_reg`. -/
def emitLoadOperandToReg (op : Operand) (slots : List (String × Nat))
    (reg : String) : Option String :=
  match op with
  | .temp t => (lookupName slots t).map
      (fun off => "mov " ++ reg ++ ", [rbp-" ++ toString off ++ "]\n")
  | .objLocal n => (lookupName slots n).map
      (fun off => "mov " ++ reg ++ ", [rbp-" ++ toString off ++ "]\n")
  | .constInt i => some ("mov " ++ reg ++ ", " ++ toString i ++ "\n")
  | .constFloat f => some ("; mov " ++ reg ++ " <- float " ++
      toString f.bits ++ " (not implemented)\nmov " ++ reg ++ ", 0\n")
  | .constString s => some ("lea " ++ reg ++ ", [rel " ++ labelFor s ++
      "] ; string " ++ s ++ "\n")

/-- Call-argument emission: the first four arguments go to
`rcx, rdx, r8, r9`; the rest are loaded and pushed. -/
def emitCallArgs (args : List Operand) (slots : List (String × Nat)) :
    Option String :=
  let regs := ["rcx", "rdx", "r8", "r9"]
  (args.enum.foldlM (fun acc (p : Nat × Operand) =>
    if p.1 < 4 then
      (emitLoadOperandToReg p.2 slots (regs.getD p.1 "")).map
        (fun s => acc ++ s)
    else
      (emitLoadOperand p.2 slots).map
        (fun s => acc ++ s ++ "push rax\n")) "" : Option String)

/-- Emission of a single instruction (`emit_function` main loop). -/
def emitInstrX64 (instr : Instr) (slots : List (String × Nat)) :
    Option String :=
  match instr with
  | .storeLocal name src => do
    let load ← emitLoadOperand src slots
    let off ← lookupName slots name
    pure (load ++ "mov [rbp-" ++ toString off ++ "], rax\n")
  | .binOp dest op left right => do
    let l ← emitLoadOperand left slots
    let r ← emitLoadOperandToReg right slots "rdx"
    let asmop :=
      if op = "+" then "add rax, rdx"
      else if op = "-" then "sub rax, rdx"
      else if op = "*" then "imul rax, rdx"
      else if op = "/" then "cqo\n    idiv rdx"
      else op
    let off ← lookupName slots dest
    pure (l ++ r ++ "    " ++ asmop ++ "\n" ++
      "mov [rbp-" ++ toString off ++ "], rax\n")
  | .call dest name args => do
    let a ← emitCallArgs args slots
    match dest with
    | some d => do
      let off ← lookupName slots d
      pure (a ++ "call " ++ name ++ "\n" ++
        "mov [rbp-" ++ toString off ++ "], rax\n")
    | none => pure (a ++ "call " ++ name ++ "\n")
  | .ret src =>
    match src with
    | some s => (emitLoadOperand s slots).map
        (fun load => load ++ "mov rsp, rbp\npop rbp\nret\n")
    | none => some "mov rsp, rbp\npop rbp\nret\n"

/-- One data-section line for a pooled string. -/
def dataLine (e : String × String) : String :=
  e.2 ++ ": db \"" ++ e.1.replace "\"" "\\\"" ++ "\",0\n"

/-- `codegen_x64_windows.rs` `emit_function`.  `none` models a panic on
an unresolved stack-slot lookup. -/
def emitFunctionX64 (f : FunctionIR) : Option String := do
  let pool := strPool f
  let slots := slotAssoc f
  let frame := frameSize f
  let prologue := "; function " ++ f.name ++ "\n" ++
    "push rbp\nmov rbp, rsp\nsub rsp, " ++ toString frame ++ "\n"
  let body ← f.instrs.foldlM
    (fun acc i => (emitInstrX64 i slots).map (fun s => acc ++ s)) prologue
  let dataSec :=
    if pool.isEmpty then ""
    else "\n; data section\n" ++ pool.foldl (fun acc e => acc ++ dataLine e) ""
  pure (body ++ "mov rsp, rbp\npop rbp\nret\n" ++ dataSec)

/-! ## Symbol table (`symbol.rs`) -/

/-- `symbol.rs` `FunctionSig`. -/
structure FunctionSig where
  name : String
  returnType : Ty
  paramsTypes : List Ty
deriving DecidableEq, Repr

/-- `symbol.rs` `Symbol`. -/
inductive Symbol where
  | function (sig : FunctionSig)
  | variable (name : String) (ty : Ty)
  | param (name : String) (ty : Ty)
deriving DecidableEq, Repr

/-- `symbol.rs` `Scope`: symbols (modelled as an association list) and
an optional parent index. -/
structure Scope where
  symbols : List (String × Symbol)
  parent : Option Nat
deriving DecidableEq, Repr

/-- `symbol.rs` `SymbolTable`: the scope arena and the current index. -/
structure SymbolTable where
  scopes : List Scope
  current : Nat
deriving DecidableEq, Repr

/-- The empty scope, also the out-of-bounds default (the Rust code
indexes `scopes[i]` only at live indices). -/
def Scope.empty : Scope := ⟨[], none⟩

/-- `SymbolTable::new`: one global scope at index 0. -/
def SymbolTable.new : SymbolTable := ⟨[Scope.empty], 0⟩

/-- `SymbolTable::enter_scope`. -/
def SymbolTable.enterScope (t : SymbolTable) : SymbolTable :=
  ⟨t.scopes ++ [⟨[], some t.current⟩], t.scopes.length⟩

/-- `SymbolTable::leave_scope`. -/
def SymbolTable.leaveScope (t : SymbolTable) : SymbolTable :=
  match (t.scopes.getD t.current Scope.empty).parent with
  | some p => ⟨t.scopes, p⟩
  | none => t

/-- The scope the table currently points at. -/
def SymbolTable.currentScope (t : SymbolTable) : Scope :=
  t.scopes.getD t.current Scope.empty

/-- `SymbolTable::declare_global_function`; `none` is the duplicate
error. -/
def SymbolTable.declareGlobalFunction (t : SymbolTable)
    (sig : FunctionSig) : Option SymbolTable :=
  match lookupName (t.scopes.getD 0 Scope.empty).symbols sig.name with
  | some _ => none
  | none =>
    some ⟨t.scopes.set 0
      ⟨(sig.name, .function sig) :: (t.scopes.getD 0 Scope.empty).symbols,
       (t.scopes.getD 0 Scope.empty).parent⟩, t.current⟩

/-- `SymbolTable::declare_local_var`; `none` is the duplicate error. -/
def SymbolTable.declareLocalVar (t : SymbolTable) (name : String)
    (ty : Ty) : Option SymbolTable :=
  match lookupName t.currentScope.symbols name with
  | some _ => none
  | none =>
    some ⟨t.scopes.set t.current
      ⟨(name, .variable name ty) :: t.currentScope.symbols,
       t.currentScope.parent⟩, t.current⟩

/-- `SymbolTable::declare_param`; `none` is the duplicate error. -/
def SymbolTable.declareParam (t : SymbolTable) (name : String)
    (ty : Ty) : Option SymbolTable :=
  match lookupName t.currentScope.symbols name with
  | some _ => none
  | none =>
    some ⟨t.scopes.set t.current
      ⟨(name, .param name ty) :: t.currentScope.symbols,
       t.currentScope.parent⟩, t.current⟩

/-- The parent-chain walk of `SymbolTable::lookup`, with fuel (the Rust
loop terminates because scope construction keeps parents strictly below
children). -/
def SymbolTable.lookupAux (t : SymbolTable) (name : String) :
    Nat → Nat → Option Symbol
  | 0, _ => none
  | fuel + 1, idx =>
    match t.scopes.get? idx with
    | none => none
    | some sc =>
      match lookupName sc.symbols name with
      | some sym => some sym
      | none =>
        match sc.parent with
        | some p => t.lookupAux name fuel p
        | none => none

/-- `SymbolTable::lookup`: search the current scope, then each
ancestor, stopping at global; the first match wins.  A pure function:
the table is not changed. -/
def SymbolTable.lookup (t : SymbolTable) (name : String) : Option Symbol :=
  t.lookupAux name t.scopes.length t.current

/-- `SymbolTable::find_global_function`. -/
def SymbolTable.findGlobalFunction (t : SymbolTable) (name : String) :
    Option FunctionSig :=
  match lookupName (t.scopes.getD 0 Scope.empty).symbols name with
  | some (.function sig) => some sig
  | _ => none

/-! ## Semantic analyzer (`semantic.rs`)

Diagnostics are pushed into one growing vector; the embedding has each
translated function return the diagnostics it pushes (its delta, in
push order) and callers append. -/

/-- `semantic.rs` `SemanticError`. -/
inductive SemanticError where
  | duplicateFunction (name : String)
  | duplicateParam (func : String) (name : String)
  | duplicateVariable (func : String) (name : String)
  | undeclaredVariable (func : String) (name : String)
  | wrongArgCount (func : String) (name : String) (expected found : Nat)
  | typeMismatch (func : String) (expected found : Ty)
  | returnTypeMismatch (func : String) (expected found : Ty)
deriving DecidableEq, Repr

/-- The pass-1 pairwise duplicate-parameter scan (`for i .. for j > i:
push if names equal`), as a recursion over the parameter list. -/
def pairDups (func : String) : List (Ty × String) → List SemanticError
  | [] => []
  | (_, n) :: rest =>
    (rest.filterMap (fun q =>
      if n = q.2 then some (.duplicateParam func n) else none))
      ++ pairDups func rest

/-- Pass 1 for one function: pairwise parameter check, then global
signature registration. -/
def pass1Func (t : SymbolTable) (f : Function) :
    SymbolTable × List SemanticError :=
  match t.declareGlobalFunction
      ⟨f.name, f.returnType, f.params.map (fun p => p.1)⟩ with
  | some t2 => (t2, pairDups f.name f.params)
  | none => (t, pairDups f.name f.params ++ [.duplicateFunction f.name])

mutual

/-- `semantic.rs` `analyze_expr`: the diagnostics it pushes, in order. -/
def analyzeExpr (funcName : String) (symbols : SymbolTable) :
    Expr → List SemanticError
  | .number _ => []
  | .floatNumber _ => []
  | .charLiteral _ => []
  | .stringLiteral _ => []
  | .ident name =>
    match symbols.lookup name with
    | some _ => []
    | none => [.undeclaredVariable funcName name]
  | .unary _ e => analyzeExpr funcName symbols e
  | .binary _ l r =>
    analyzeExpr funcName symbols l ++ analyzeExpr funcName symbols r
  | .assign name value =>
    (match symbols.lookup name with
      | some _ => []
      | none => [.undeclaredVariable funcName name])
      ++ analyzeExpr funcName symbols value
  | .call name args =>
    analyzeArgs funcName symbols args ++
      (match symbols.findGlobalFunction name with
        | some sig =>
          if sig.paramsTypes.length ≠ 0 ∧
              sig.paramsTypes.length ≠ args.length then
            [.wrongArgCount funcName name sig.paramsTypes.length args.length]
          else []
        | none => [])

/-- The `for a in args` loop of the `Call` case of `analyze_expr`. -/
def analyzeArgs (funcName : String) (symbols : SymbolTable) :
    List Expr → List SemanticError
  | [] => []
  | a :: rest =>
    analyzeExpr funcName symbols a ++ analyzeArgs funcName symbols rest

end

/-- `semantic.rs` `expr_type`: best-effort type inference. -/
def exprType (symbols : SymbolTable) : Expr → Option Ty
  | .number _ => some .int
  | .floatNumber _ => some .float
  | .charLiteral _ => some .char
  | .stringLiteral _ => none
  | .ident name =>
    match symbols.lookup name with
    | some (.variable _ ty) => some ty
    | some (.param _ ty) => some ty
    | some (.function _) => none
    | none => none
  | .unary _ _ => none
  | .binary _ l r =>
    let lt := exprType symbols l
    let rt := exprType symbols r
    if lt = rt then lt else none
  | .assign name value =>
    match symbols.lookup name with
    | some (.variable _ ty) => some ty
    | _ => exprType symbols value
  | .call name _ =>
    match symbols.findGlobalFunction name with
    | some sig => some sig.returnType
    | none => none

/-- `semantic.rs` `analyze_stmt`: the updated table and the pushed
diagnostics. -/
def analyzeStmt (funcName : String) (symbols : SymbolTable) :
    Stmt → SymbolTable × List SemanticError
  | .varDecl ty name value =>
    match symbols.declareLocalVar name ty with
    | none => (symbols, [.duplicateVariable funcName name])
    | some t2 =>
      let d := analyzeExpr funcName t2 value
      let tyErr :=
        match exprType t2 value with
        | some vt =>
          if vt ≠ ty then [.typeMismatch funcName ty vt] else []
        | none => []
      (t2, d ++ tyErr)
  | .exprStmt e => (symbols, analyzeExpr funcName symbols e)
  | .ret e =>
    let d := analyzeExpr funcName symbols e
    let retErr :=
      match symbols.findGlobalFunction funcName with
      | some sig =>
        (match exprType symbols e with
          | some rt =>
            if rt ≠ sig.returnType then
              [.returnTypeMismatch funcName sig.returnType rt]
            else []
          | none => [])
      | none => []
    (symbols, d ++ retErr)

/-- The parameter-declaration loop of pass 2 (`declare_param` per
parameter; a collision re-raises `DuplicateParam`).  Returns the
evolved table and the pushed diagnostics in push order. -/
def declareParams (funcName : String) :
    List (Ty × String) → SymbolTable → SymbolTable × List SemanticError
  | [], t => (t, [])
  | p :: rest, t =>
    match t.declareParam p.2 p.1 with
    | some t2 =>
      let r := declareParams funcName rest t2
      (r.1, r.2)
    | none =>
      let r := declareParams funcName rest t
      (r.1, .duplicateParam funcName p.2 :: r.2)

/-- The statement loop of pass 2. -/
def analyzeStmts (funcName : String) :
    List Stmt → SymbolTable → SymbolTable × List SemanticError
  | [], t => (t, [])
  | s :: rest, t =>
    let r1 := analyzeStmt funcName t s
    let r2 := analyzeStmts funcName rest r1.1
    (r2.1, r1.2 ++ r2.2)

/-- Pass 2 for one function: enter a scope, declare parameters, analyze
each statement, leave the scope.  Returns the evolved table and the
function's diagnostic delta. -/
def analyzeFunc (t : SymbolTable) (f : Function) :
    SymbolTable × List SemanticError :=
  let t1 := t.enterScope
  let dp := declareParams f.name f.params t1
  let db := analyzeStmts f.name f.body.stmts dp.1
  (db.1.leaveScope, dp.2 ++ db.2)

/-- The pass-1 loop over all functions. -/
def pass1All : List Function → SymbolTable → SymbolTable × List SemanticError
  | [], t => (t, [])
  | f :: fs, t =>
    let r1 := pass1Func t f
    let r2 := pass1All fs r1.1
    (r2.1, r1.2 ++ r2.2)

/-- The pass-2 loop over all functions. -/
def pass2All : List Function → SymbolTable → SymbolTable × List SemanticError
  | [], t => (t, [])
  | f :: fs, t =>
    let r1 := analyzeFunc t f
    let r2 := pass2All fs r1.1
    (r2.1, r1.2 ++ r2.2)

/-- The full diagnostic list of `semantic.rs` `analyze`: pass 1 over
all functions, then pass 2 over all functions, errors appended in push
order. -/
def analyzeErrors (p : Program) : List SemanticError :=
  let r1 := pass1All p.functions SymbolTable.new
  let r2 := pass2All p.functions r1.1
  r1.2 ++ r2.2

/-- The per-function diagnostic deltas of pass 1, in program order. -/
def pass1DeltaList : List Function → SymbolTable → List (List SemanticError)
  | [], _ => []
  | f :: fs, t => (pass1Func t f).2 :: pass1DeltaList fs (pass1Func t f).1

/-- The per-function diagnostic deltas of pass 2, in program order. -/
def pass2DeltaList : List Function → SymbolTable → List (List SemanticError)
  | [], _ => []
  | f :: fs, t => (analyzeFunc t f).2 :: pass2DeltaList fs (analyzeFunc t f).1

/-- `semantic.rs` `analyze`: `Ok(())` when no diagnostics, otherwise
`Err` with the collected list. -/
def analyze (p : Program) : Except (List SemanticError) Unit :=
  let errors := analyzeErrors p
  if errors = [] then .ok () else .error errors

/-! ## Predicates used by the claims -/

/-- Is an operand a constant string? -/
def isConstString : Operand → Bool
  | .constString _ => true
  | _ => false

/-- An instruction is good for C2 when neither a `StoreLocal` source
nor a `Return` source is a constant string (so constant strings occur
only as `Call` arguments or `BinOp` operands). -/
def goodInstr : Instr → Bool
  | .storeLocal _ src => !(isConstString src)
  | .ret (some src) => !(isConstString src)
  | _ => true

/-- Is an expression a string literal? -/
def isStringLit : Expr → Bool
  | .stringLiteral _ => true
  | _ => false

mutual

/-- No string literal sits directly in a stored position (an assignment
right-hand side) inside this expression. -/
def noBadStrExpr : Expr → Bool
  | .number _ => true
  | .floatNumber _ => true
  | .charLiteral _ => true
  | .stringLiteral _ => true
  | .ident _ => true
  | .unary _ e => noBadStrExpr e
  | .binary _ l r => noBadStrExpr l && noBadStrExpr r
  | .assign _ v => !(isStringLit v) && noBadStrExpr v
  | .call _ args => noBadStrList args

/-- `noBadStrExpr` over a list of arguments. -/
def noBadStrList : List Expr → Bool
  | [] => true
  | a :: rest => noBadStrExpr a && noBadStrList rest

end

/-- No string literal sits directly in a stored or returned position in
this statement. -/
def noBadStrStmt : Stmt → Bool
  | .varDecl _ _ v => !(isStringLit v) && noBadStrExpr v
  | .exprStmt e => noBadStrExpr e
  | .ret e => !(isStringLit e) && noBadStrExpr e

/-- C2's amended hypothesis: every string literal of the function body
occurs only as a direct call argument or as an operand of a unary or
binary operation (the only positions the current grammar produces). -/
def noStoredStrings (f : Function) : Bool :=
  f.body.stmts.all noBadStrStmt

/-- Deduplication keeping first occurrences, relative to names already
seen. -/
def firstSeenFrom : List String → List String → List String
  | _, [] => []
  | seen, n :: rest =>
    if n ∈ seen then firstSeenFrom seen rest
    else n :: firstSeenFrom (seen ++ [n]) rest

/-- The distinct names of a list in first-seen order. -/
def firstSeen (l : List String) : List String := firstSeenFrom [] l

/-- The slot map assigning `8, 16, 24, …` to a list of names in order,
starting after `k` names. -/
def enumSlotsFrom (k : Nat) : List String → List (String × Nat)
  | [] => []
  | n :: rest => (n, 8 * (k + 1)) :: enumSlotsFrom (k + 1) rest

/-! ## Concrete programs used by counterexamples and witnesses -/

/-- The spec's round-trip function
`int add(int a,int b)\x7b int c = a + b; return c; \x7d`. -/
def addFunction : Function :=
  ⟨"add", .int, [(.int, "a"), (.int, "b")],
    ⟨[.varDecl .int "c" (.binary .add (.ident "a") (.ident "b")),
      .ret (.ident "c")]⟩⟩

/-- A function whose parameter list contains `a` exactly twice. -/
def dupParamFunction : Function :=
  ⟨"g", .int, [(.int, "a"), (.int, "a")], ⟨[]⟩⟩

/-- The one-function program around `dupParamFunction`. -/
def dupParamProgram : Program := ⟨[dupParamFunction]⟩

/-- `int f()\x7b print(f); \x7d`: the identifier `f` resolves to the
global function symbol, so semantic analysis accepts the program. -/
def fnAsValueFunction : Function :=
  ⟨"f", .int, [], ⟨[.exprStmt (.call "print" [.ident "f"])]⟩⟩

/-- The one-function program around `fnAsValueFunction`. -/
def fnAsValueProgram : Program := ⟨[fnAsValueFunction]⟩

/-- `int f()\x7b int s = "hi"; \x7d` as a function AST: a string
literal in a stored position. -/
def storeStringFunction : Function :=
  ⟨"f", .int, [], ⟨[.varDecl .int "s" (.stringLiteral "hi")]⟩⟩

/-- An IR function passing the same literal string to two calls. -/
def twoCallPoolFunction : FunctionIR :=
  ⟨"f", [],
    [.call (some "t0") "printf" [.constString "hi"],
     .call (some "t1") "printf" [.constString "hi"]]⟩

/-- A two-scope table declaring `x` in the global scope and again in a
child scope (the current one). -/
def shadowTable : SymbolTable :=
  ⟨[⟨[("x", .variable "x" .int)], none⟩,
    ⟨[("x", .variable "x" .char)], some 0⟩], 1⟩

/-- `int f()\x7b int x = 1; int x = y; \x7d`: a duplicate declaration
whose initializer mentions an undeclared identifier. -/
def dupVarProgram : Program :=
  ⟨[⟨"f", .int, [],
    ⟨[.varDecl .int "x" (.number 1),
      .varDecl .int "x" (.ident "y")]⟩⟩]⟩

/-- Split a character list at newline characters. -/
def splitNl : List Char → List (List Char)
  | [] => [[]]
  | c :: rest =>
    if c = '\n' then [] :: splitNl rest
    else
      match splitNl rest with
      | l :: ls => (c :: l) :: ls
      | [] => [[c]]

/-- The newline-separated pieces of a string. -/
def lineSplit (s : String) : List String :=
  (splitNl s.data).map (fun l => String.mk l)

/-- The strict ancestors of a scope index: its parent, the parent's
parent, and so on (with fuel bounding the walk). -/
def parentChainFrom (t : SymbolTable) : Nat → Nat → List Nat
  | 0, _ => []
  | fuel + 1, i =>
    match (t.scopes.get? i).bind (fun sc => sc.parent) with
    | some p => p :: parentChainFrom t fuel p
    | none => []

/-- The strict ancestors of the current scope. -/
def strictAncestors (t : SymbolTable) : List Nat :=
  parentChainFrom t t.scopes.length t.current

/-! ## Claim theorems -/

/-- C5: for `int add(int a,int b)\x7b int c = a + b; return c; \x7d`,
lowering produces exactly one `BinaryOp` (`+`) into a fresh temporary,
then one `StoreLocal` to `c`, then one `Return` of the local slot `c`;
and the TAC emitter renders that unit as a `.func` block whose body is
exactly those three lines in the same order. -/
theorem add_roundtrip_tac :
    (lowerFunction addFunction).instrs =
      [.binOp "t0" "+" (.objLocal "a") (.objLocal "b"),
       .storeLocal "c" (.temp "t0"),
       .ret (some (.objLocal "c"))] ∧
    emitFunctionTAC (lowerFunction addFunction) =
      ".func add(a, b)\n\x7b\n  t0 = %a + %b\n  MOV %c, t0\n  RET %c\n\x7d\n" ∧
    lineSplit (emitFunctionTAC (lowerFunction addFunction)) =
      [".func add(a, b)", "\x7b", "  t0 = %a + %b", "  MOV %c, t0",
       "  RET %c", "\x7d", ""] :=
  ⟨rfl, rfl, by decide⟩

/-- C3 (failing input): the program `int f()\x7b print(f); \x7d`
passes semantic analysis with no diagnostics, yet its lowered body
reads the operand `Local f`, which the slot pre-pass never assigns a
stack slot (it only covers parameters, `StoreLocal` targets, `BinaryOp`
destinations and `Call` destinations), so the x64 emitter's slot lookup
fails — the claim that validated input makes the lookup total is
contradicted by the code. -/
theorem validated_program_unresolved_slot :
    analyze fnAsValueProgram = .ok () ∧
    (lowerFunction fnAsValueFunction).instrs =
      [.call (some "t0") "print" [.objLocal "f"]] ∧
    lookupName (slotAssoc (lowerFunction fnAsValueFunction)) "f" = none ∧
    emitFunctionX64 (lowerFunction fnAsValueFunction) = none :=
  ⟨rfl, rfl, rfl, rfl⟩

/-- C1 (counterexample): for the function `g` whose parameter list
contains `a` exactly twice, the analyzer emits the `DuplicateParameter`
diagnostic twice — once from the pass-1 pairwise check and once from
the pass-2 scope insertion — not exactly once as claimed. -/
theorem dupParam_reported_twice :
    analyzeErrors dupParamProgram =
      [.duplicateParam "g" "a", .duplicateParam "g" "a"] ∧
    (analyzeErrors dupParamProgram).count (.duplicateParam "g" "a") ≠ 1 :=
  ⟨rfl, by decide⟩

/-- C2 (counterexample): for the function AST
`int f()\x7b int s = "hi"; \x7d`, lowering emits a `StoreLocal` whose
source operand is the constant string `"hi"`, refuting the claim as
stated over every function AST. -/
theorem storeLocal_constString_exists :
    (lowerFunction storeStringFunction).instrs =
      [.storeLocal "s" (.constString "hi")] ∧
    ((lowerFunction storeStringFunction).instrs.all goodInstr) = false :=
  ⟨rfl, rfl⟩

/-- C10: when a variable declaration collides with a name already
present in the current scope, the analyzer reports `DuplicateVariable`
and returns without analyzing the initializer at all — the resulting
table is unchanged and the delta is exactly that one diagnostic,
whatever the initializer contains. -/
theorem varDecl_duplicate_skips_initializer (funcName : String)
    (t : SymbolTable) (ty : Ty) (name : String) (value : Expr)
    (h : (lookupName t.currentScope.symbols name).isSome = true) :
    analyzeStmt funcName t (.varDecl ty name value) =
      (t, [.duplicateVariable funcName name]) := by
  obtain ⟨v, hv⟩ := Option.isSome_iff_exists.mp h
  simp only [analyzeStmt, SymbolTable.declareLocalVar, hv]

/-- C10 (witness): in a table whose current scope declares `x`, the
statement `int x = y` yields only `DuplicateVariable` — the undeclared
`y` in the initializer is not reported. -/
theorem varDecl_duplicate_skips_initializer_witness :
    (lookupName
      (SymbolTable.currentScope ⟨[⟨[("x", .variable "x" .int)], none⟩], 0⟩).symbols
      "x").isSome = true ∧
    analyzeStmt "f" ⟨[⟨[("x", .variable "x" .int)], none⟩], 0⟩
        (.varDecl .int "x" (.ident "y")) =
      (⟨[⟨[("x", .variable "x" .int)], none⟩], 0⟩,
       [.duplicateVariable "f" "x"]) :=
  ⟨by decide,
   varDecl_duplicate_skips_initializer "f"
     ⟨[⟨[("x", .variable "x" .int)], none⟩], 0⟩ .int "x" (.ident "y")
     (by decide)⟩

/-! ### Helper lemmas: first-seen deduplication, slots and pooling -/

theorem mem_firstSeenFrom_iff (l : List String) :
    ∀ (seen : List String) (x : String),
      x ∈ firstSeenFrom seen l ↔ x ∈ l ∧ x ∉ seen := by
  induction l with
  | nil => intro seen x; simp [firstSeenFrom]
  | cons n rest ih =>
    intro seen x
    unfold firstSeenFrom
    by_cases hn : n ∈ seen
    · rw [if_pos hn, ih]
      constructor
      · rintro ⟨hx, hns⟩
        exact ⟨List.mem_cons_of_mem _ hx, hns⟩
      · rintro ⟨hx, hns⟩
        rcases List.mem_cons.mp hx with h | h
        · exact absurd (h ▸ hn) hns
        · exact ⟨h, hns⟩
    · rw [if_neg hn]
      constructor
      · intro hx
        rcases List.mem_cons.mp hx with h | h
        · exact ⟨h ▸ List.mem_cons_self _ _, h ▸ hn⟩
        · obtain ⟨h1, h2⟩ := (ih _ _).mp h
          refine ⟨List.mem_cons_of_mem _ h1, fun hc => h2 ?_⟩
          exact List.mem_append_left _ hc
      · rintro ⟨hx, hns⟩
        rcases List.mem_cons.mp hx with h | h
        · exact h ▸ List.mem_cons_self _ _
        · by_cases hxn : x = n
          · exact hxn ▸ List.mem_cons_self _ _
          · refine List.mem_cons_of_mem _ ((ih _ _).mpr ⟨h, fun hc => ?_⟩)
            rcases List.mem_append.mp hc with hc | hc
            · exact hns hc
            · exact hxn (List.mem_singleton.mp hc)

theorem nodup_firstSeenFrom (l : List String) :
    ∀ seen : List String, (firstSeenFrom seen l).Nodup := by
  induction l with
  | nil => intro seen; simp [firstSeenFrom]
  | cons n rest ih =>
    intro seen
    unfold firstSeenFrom
    by_cases hn : n ∈ seen
    · rw [if_pos hn]; exact ih seen
    · rw [if_neg hn]
      refine List.nodup_cons.mpr ⟨fun hc => ?_, ih _⟩
      obtain ⟨-, h2⟩ := (mem_firstSeenFrom_iff _ _ _).mp hc
      exact h2 (List.mem_append_right _ (List.mem_singleton.mpr rfl))

theorem lookupName_enumSlotsFrom_none (seen : List String) :
    ∀ (k : Nat) (n : String),
      lookupName (enumSlotsFrom k seen) n = none ↔ n ∉ seen := by
  induction seen with
  | nil => intro k n; simp [enumSlotsFrom, lookupName]
  | cons m rest ih =>
    intro k n
    unfold enumSlotsFrom lookupName
    by_cases hm : m = n
    · simp [hm]
    · rw [if_neg hm, ih]
      simp [List.mem_cons, Ne.symm hm]

theorem enumSlotsFrom_append (xs : List String) :
    ∀ (ys : List String) (k : Nat),
      enumSlotsFrom k (xs ++ ys) =
        enumSlotsFrom k xs ++ enumSlotsFrom (k + xs.length) ys := by
  induction xs with
  | nil => intro ys k; simp [enumSlotsFrom]
  | cons n rest ih =>
    intro ys k
    simp only [List.cons_append, enumSlotsFrom, List.length_cons,
      List.append_eq, ih]
    have h : k + 1 + rest.length = k + (rest.length + 1) := by omega
    rw [h]

theorem slotFold_spec (names : List String) :
    ∀ seen : List String,
      names.foldl slotStep (8 * seen.length, enumSlotsFrom 0 seen) =
        (8 * (seen ++ firstSeenFrom seen names).length,
         enumSlotsFrom 0 (seen ++ firstSeenFrom seen names)) := by
  induction names with
  | nil => intro seen; simp [firstSeenFrom]
  | cons n rest ih =>
    intro seen
    rw [List.foldl_cons]
    unfold firstSeenFrom
    by_cases hn : n ∈ seen
    · have hlk : lookupName (enumSlotsFrom 0 seen) n ≠ none := by
        rw [ne_eq, lookupName_enumSlotsFrom_none]; simp [hn]
      have hstep : slotStep (8 * seen.length, enumSlotsFrom 0 seen) n =
          (8 * seen.length, enumSlotsFrom 0 seen) := by
        unfold slotStep
        cases h : lookupName (enumSlotsFrom 0 seen) n with
        | none => exact absurd h hlk
        | some v => rfl
      rw [hstep, if_pos hn, ih seen]
    · have hlk : lookupName (enumSlotsFrom 0 seen) n = none :=
        (lookupName_enumSlotsFrom_none _ _ _).mpr hn
      have hstep : slotStep (8 * seen.length, enumSlotsFrom 0 seen) n =
          (8 * (seen ++ [n]).length, enumSlotsFrom 0 (seen ++ [n])) := by
        unfold slotStep
        rw [hlk]
        rw [enumSlotsFrom_append]
        simp [enumSlotsFrom, List.length_append]
        omega
      rw [hstep, if_neg hn, ih (seen ++ [n])]
      simp [List.append_assoc]

theorem buildSlots_eq (f : FunctionIR) :
    buildSlots f =
      (8 * (firstSeen (defNames f)).length,
       enumSlotsFrom 0 (firstSeen (defNames f))) := by
  have h := slotFold_spec (defNames f) []
  simpa [buildSlots, firstSeen, enumSlotsFrom] using h

theorem mem_enumSlotsFrom (ns : List String) :
    ∀ (k : Nat) (n : String) (o : Nat), (n, o) ∈ enumSlotsFrom k ns →
      ∃ i, ns.get? i = some n ∧ o = 8 * (k + i + 1) := by
  induction ns with
  | nil => intro k n o h; simp [enumSlotsFrom] at h
  | cons m rest ih =>
    intro k n o h
    unfold enumSlotsFrom at h
    rcases List.mem_cons.mp h with h | h
    · have h1 : n = m := congrArg Prod.fst h
      have h2 : o = 8 * (k + 1) := congrArg Prod.snd h
      exact ⟨0, by simp [h1], by omega⟩
    · obtain ⟨i, hi, ho⟩ := ih (k + 1) n o h
      exact ⟨i + 1, by simpa using hi, by omega⟩

/-- C7: the x64 slot pre-pass assigns slots `8, 16, 24, …` to the
distinct defined names (parameters first, then `StoreLocal` targets,
`BinOp` destinations and `Call` destinations, in first-seen order);
the assignment is injective and no name is ever re-assigned (the slot
map's keys are the first-seen deduplication, hence without repeats). -/
theorem slot_assignment_injective (f : FunctionIR) :
    slotAssoc f = enumSlotsFrom 0 (firstSeen (defNames f)) ∧
    ((slotAssoc f).map Prod.fst).Nodup ∧
    ∀ n₁ n₂ o, (n₁, o) ∈ slotAssoc f → (n₂, o) ∈ slotAssoc f → n₁ = n₂ := by
  have heq : slotAssoc f = enumSlotsFrom 0 (firstSeen (defNames f)) :=
    congrArg Prod.snd (buildSlots_eq f)
  have hkeys : ∀ (ns : List String) (k : Nat),
      (enumSlotsFrom k ns).map Prod.fst = ns := by
    intro ns
    induction ns with
    | nil => intro k; simp [enumSlotsFrom]
    | cons m rest ih => intro k; simp [enumSlotsFrom, ih]
  refine ⟨heq, ?_, ?_⟩
  · rw [heq, hkeys]
    exact nodup_firstSeenFrom _ _
  · intro n₁ n₂ o h₁ h₂
    rw [heq] at h₁ h₂
    obtain ⟨i, hi, hoi⟩ := mem_enumSlotsFrom _ _ _ _ h₁
    obtain ⟨j, hj, hoj⟩ := mem_enumSlotsFrom _ _ _ _ h₂
    have hij : i = j := by omega
    rw [hij, hj] at hi
    exact (Option.some.inj hi).symm

/-- C8: the x64 frame size is the total slot offset rounded up to the
next multiple of 16, raised to the 32-byte floor when smaller; it is
always a multiple of 16, never below 32, and at least the total
offset. -/
theorem frame_size_aligned (f : FunctionIR) :
    16 ∣ frameSize f ∧ 32 ≤ frameSize f ∧
    frameSize f = max 32 (16 * ((totalOffset f + 15) / 16)) ∧
    totalOffset f ≤ frameSize f ∧
    frameSize f ≤ max 32 (totalOffset f + 8) := by
  have h8 : totalOffset f = 8 * (firstSeen (defNames f)).length :=
    congrArg Prod.fst (buildSlots_eq f)
  set k := (firstSeen (defNames f)).length with hk
  simp only [frameSize]
  refine ⟨?_, ?_, ?_, ?_, ?_⟩ <;> split_ifs <;> omega

/-! ### String pooling -/

theorem lookupName_map_label (seen : List String) (s : String) :
    (lookupName (seen.map (fun x => (x, labelFor x))) s = none ↔ s ∉ seen) ∧
    (s ∈ seen →
      lookupName (seen.map (fun x => (x, labelFor x))) s = some (labelFor s)) := by
  induction seen with
  | nil => simp [lookupName]
  | cons m rest ih =>
    simp only [List.map_cons, lookupName]
    by_cases hm : m = s
    · subst hm
      simp
    · rw [if_neg hm]
      refine ⟨?_, ?_⟩
      · rw [ih.1]
        simp [List.mem_cons, Ne.symm hm]
      · intro hmem
        rcases List.mem_cons.mp hmem with h | h
        · exact absurd h.symm hm
        · exact ih.2 h

theorem poolFold_spec (names : List String) :
    ∀ seen : List String,
      names.foldl poolStep (seen.map (fun x => (x, labelFor x))) =
        (seen ++ firstSeenFrom seen names).map (fun x => (x, labelFor x)) := by
  induction names with
  | nil => intro seen; simp [firstSeenFrom]
  | cons n rest ih =>
    intro seen
    rw [List.foldl_cons]
    unfold firstSeenFrom
    by_cases hn : n ∈ seen
    · have hlk : lookupName (seen.map (fun x => (x, labelFor x))) n ≠ none := by
        rw [ne_eq, (lookupName_map_label seen n).1]; simp [hn]
      have hstep : poolStep (seen.map (fun x => (x, labelFor x))) n =
          seen.map (fun x => (x, labelFor x)) := by
        unfold poolStep
        cases h : lookupName (seen.map (fun x => (x, labelFor x))) n with
        | none => exact absurd h hlk
        | some v => rfl
      rw [hstep, if_pos hn, ih seen]
    · have hlk : lookupName (seen.map (fun x => (x, labelFor x))) n = none :=
        (lookupName_map_label seen n).1.mpr hn
      have hstep : poolStep (seen.map (fun x => (x, labelFor x))) n =
          (seen ++ [n]).map (fun x => (x, labelFor x)) := by
        unfold poolStep
        rw [hlk]
        simp
      rw [hstep, if_neg hn, ih (seen ++ [n])]
      simp [List.append_assoc]

theorem strPool_eq (f : FunctionIR) :
    strPool f =
      (firstSeen (pooledStrings f)).map (fun x => (x, labelFor x)) := by
  have h := poolFold_spec (pooledStrings f) []
  simpa [strPool, firstSeen] using h

/-- C9: when the same literal string occurs (more than once) among the
`Call` arguments and `BinOp` operands of one IR function, the x64
emitter pools it by value: the pool holds exactly one entry for that
string, and its label is the single hash-derived label `labelFor`,
which every occurrence is rendered with. -/
theorem string_pool_by_value (f : FunctionIR) (s : String)
    (h : 2 ≤ (pooledStrings f).count s) :
    ((strPool f).countP (fun e => e.1 == s)) = 1 ∧
    lookupName (strPool f) s = some (labelFor s) := by
  have hmem : s ∈ pooledStrings f :=
    List.count_pos_iff.mp (by omega : 0 < (pooledStrings f).count s)
  have hfs : s ∈ firstSeen (pooledStrings f) :=
    (mem_firstSeenFrom_iff _ _ _).mpr ⟨hmem, by simp⟩
  have hnd : (firstSeen (pooledStrings f)).Nodup := nodup_firstSeenFrom _ _
  constructor
  · rw [strPool_eq, List.countP_map]
    have hcc : (firstSeen (pooledStrings f)).countP
        ((fun e => e.1 == s) ∘ (fun x => (x, labelFor x))) =
        (firstSeen (pooledStrings f)).count s := rfl
    rw [hcc]
    have h1 : (firstSeen (pooledStrings f)).count s ≤ 1 :=
      List.nodup_iff_count_le_one.mp hnd s
    have h2 : 0 < (firstSeen (pooledStrings f)).count s :=
      List.count_pos_iff.mpr hfs
    omega
  · rw [strPool_eq]
    exact (lookupName_map_label _ _).2 hfs

/-- C9 (witness): an IR function passing `"hi"` to two separate calls
pools it into one entry labelled by its hash. -/
theorem string_pool_by_value_witness :
    2 ≤ (pooledStrings twoCallPoolFunction).count "hi" ∧
    ((strPool twoCallPoolFunction).countP (fun e => e.1 == "hi")) = 1 ∧
    lookupName (strPool twoCallPoolFunction) "hi" = some (labelFor "hi") :=
  ⟨by decide, string_pool_by_value twoCallPoolFunction "hi" (by decide)⟩

/-- C6: when a name is declared in the current scope (and also in some
strict ancestor of it), `lookup` returns the symbol declared in the
current scope — the nearest-enclosing declaration wins.  `lookup` is a
pure function of the table, so it cannot mutate it. -/
theorem lookup_finds_innermost (t : SymbolTable) (name : String)
    (sym : Symbol) (hcur : t.current < t.scopes.length)
    (hdecl : lookupName t.currentScope.symbols name = some sym)
    (_hanc : ∃ j ∈ strictAncestors t,
      (lookupName (t.scopes.getD j Scope.empty).symbols name).isSome = true) :
    t.lookup name = some sym := by
  unfold SymbolTable.lookup
  have hget : t.scopes.get? t.current = some t.currentScope := by
    simp [SymbolTable.currentScope, List.getD_eq_getElem?_getD,
      List.get?_eq_getElem?, List.getElem?_eq_getElem hcur]
  cases hl : t.scopes.length with
  | zero => omega
  | succ m =>
    unfold SymbolTable.lookupAux
    rw [hget]
    simp only [hdecl]

/-- C6 (witness): in a table whose global scope declares `x : int` and
whose current child scope declares `x : char`, lookup from the child
returns the child's `x`. -/
theorem lookup_finds_innermost_witness :
    (shadowTable.current < shadowTable.scopes.length ∧
      lookupName shadowTable.currentScope.symbols "x" =
        some (.variable "x" .char) ∧
      ∃ j ∈ strictAncestors shadowTable,
        (lookupName (shadowTable.scopes.getD j Scope.empty).symbols
          "x").isSome = true) ∧
    shadowTable.lookup "x" = some (.variable "x" .char) :=
  ⟨⟨by decide, by decide, ⟨0, by decide, by decide⟩⟩,
   lookup_finds_innermost shadowTable "x" (.variable "x" .char)
     (by decide) (by decide) ⟨0, by decide, by decide⟩⟩

/-! ### Lowering and string literals (C2) -/

mutual

theorem lowerExpr_noBadStr : ∀ (e : Expr) (tmp : Nat),
    noBadStrExpr e = true →
    ((lowerExpr e tmp).2.2.all goodInstr = true ∧
     ∀ s, (lowerExpr e tmp).1 = .constString s → e = .stringLiteral s)
  | .number n, tmp, _ => by
    refine ⟨rfl, fun s hs => ?_⟩
    simp [lowerExpr] at hs
  | .floatNumber x, tmp, _ => by
    refine ⟨rfl, fun s hs => ?_⟩
    simp [lowerExpr] at hs
  | .charLiteral c, tmp, _ => by
    refine ⟨rfl, fun s hs => ?_⟩
    simp [lowerExpr] at hs
  | .stringLiteral str, tmp, _ => by
    refine ⟨rfl, fun s hs => ?_⟩
    simp only [lowerExpr, Operand.constString.injEq] at hs
    rw [hs]
  | .ident name, tmp, _ => by
    refine ⟨rfl, fun s hs => ?_⟩
    simp [lowerExpr] at hs
  | .unary op e, tmp, h => by
    have hsub := lowerExpr_noBadStr e tmp (by simpa [noBadStrExpr] using h)
    refine ⟨?_, fun s hs => ?_⟩
    · simp only [lowerExpr, List.all_append, hsub.1, Bool.true_and]
      cases op <;> rfl
    · simp [lowerExpr] at hs
  | .binary op l r, tmp, h => by
    have hlr := by simpa [noBadStrExpr, Bool.and_eq_true] using h
    have hl := lowerExpr_noBadStr l tmp hlr.1
    have hr := lowerExpr_noBadStr r (lowerExpr l tmp).2.1 hlr.2
    refine ⟨?_, fun s hs => ?_⟩
    · simp only [lowerExpr, List.all_append, hl.1, hr.1, Bool.true_and]
      cases op <;> rfl
    · simp [lowerExpr] at hs
  | .assign name value, tmp, h => by
    have hv := by simpa [noBadStrExpr, Bool.and_eq_true] using h
    have hsub := lowerExpr_noBadStr value tmp hv.2
    refine ⟨?_, fun s hs => ?_⟩
    · simp only [lowerExpr, List.all_append, hsub.1, Bool.true_and,
        List.all_cons, List.all_nil, Bool.and_true]
      show goodInstr (.storeLocal name (lowerExpr value tmp).1) = true
      unfold goodInstr
      cases hop : (lowerExpr value tmp).1 with
      | constString s =>
        have := hsub.2 s hop
        rw [this] at hv
        simp [isStringLit] at hv
      | temp t => rfl
      | objLocal n => rfl
      | constInt i => rfl
      | constFloat x => rfl
    · simp [lowerExpr] at hs
  | .call name args, tmp, h => by
    have hsub := lowerArgs_noBadStr args tmp (by simpa [noBadStrExpr] using h)
    refine ⟨?_, fun s hs => ?_⟩
    · simp only [lowerExpr, List.all_append, hsub, Bool.true_and]
      rfl
    · simp [lowerExpr] at hs

theorem lowerArgs_noBadStr : ∀ (args : List Expr) (tmp : Nat),
    noBadStrList args = true →
    (lowerArgs args tmp).2.2.all goodInstr = true
  | [], _, _ => rfl
  | a :: rest, tmp, h => by
    have hp := by simpa [noBadStrList, Bool.and_eq_true] using h
    have h1 := lowerExpr_noBadStr a tmp hp.1
    have h2 := lowerArgs_noBadStr rest (lowerExpr a tmp).2.1 hp.2
    simp only [lowerArgs, List.all_append, h1.1, h2, Bool.and_self]

end

theorem lowerStmt_noBadStr (s : Stmt) (tmp : Nat)
    (h : noBadStrStmt s = true) :
    (lowerStmt s tmp).2.all goodInstr = true := by
  cases s with
  | varDecl ty name value =>
    have hv := by simpa [noBadStrStmt, Bool.and_eq_true] using h
    have hsub := lowerExpr_noBadStr value tmp hv.2
    simp only [lowerStmt, List.all_append, hsub.1, Bool.true_and,
      List.all_cons, List.all_nil, Bool.and_true]
    show goodInstr (.storeLocal name (lowerExpr value tmp).1) = true
    unfold goodInstr
    cases hop : (lowerExpr value tmp).1 with
    | constString str =>
      have := hsub.2 str hop
      rw [this] at hv
      simp [isStringLit] at hv
    | temp t => rfl
    | objLocal n => rfl
    | constInt i => rfl
    | constFloat x => rfl
  | exprStmt e =>
    have hsub := lowerExpr_noBadStr e tmp (by simpa [noBadStrStmt] using h)
    simpa [lowerStmt] using hsub.1
  | ret e =>
    have hv := by simpa [noBadStrStmt, Bool.and_eq_true] using h
    have hsub := lowerExpr_noBadStr e tmp hv.2
    simp only [lowerStmt, List.all_append, hsub.1, Bool.true_and,
      List.all_cons, List.all_nil, Bool.and_true]
    show goodInstr (.ret (some (lowerExpr e tmp).1)) = true
    unfold goodInstr
    cases hop : (lowerExpr e tmp).1 with
    | constString str =>
      have := hsub.2 str hop
      rw [this] at hv
      simp [isStringLit] at hv
    | temp t => rfl
    | objLocal n => rfl
    | constInt i => rfl
    | constFloat x => rfl

theorem lowerStmts_fold_good (stmts : List Stmt) :
    ∀ (tmp : Nat) (acc : List Instr), acc.all goodInstr = true →
      stmts.all noBadStrStmt = true →
      (stmts.foldl (fun acc stmt =>
        let rs := lowerStmt stmt acc.1
        (rs.1, acc.2 ++ rs.2)) (tmp, acc)).2.all goodInstr = true := by
  induction stmts with
  | nil => intro tmp acc hacc _; simpa using hacc
  | cons s rest ih =>
    intro tmp acc hacc hall
    have hp : noBadStrStmt s = true ∧ rest.all noBadStrStmt = true := by
      simpa only [List.all_cons, Bool.and_eq_true] using hall
    rw [List.foldl_cons]
    exact ih (lowerStmt s tmp).1 (acc ++ (lowerStmt s tmp).2)
      (by simp [List.all_append, hacc, lowerStmt_noBadStr s tmp hp.1]) hp.2

/-- C2 (amended): for every function AST in which string literals occur
only as direct call arguments or unary/binary operands (never directly
as a variable-declaration initializer, assignment right-hand side or
return operand — the only positions the current grammar produces),
lowering emits no `StoreLocal` and no `Return` whose source is a
constant-string operand, so string literals reach the IR only as `Call`
arguments or `BinaryOp` operands. -/
theorem lowering_stores_no_strings (f : Function)
    (h : noStoredStrings f = true) :
    (lowerFunction f).instrs.all goodInstr = true := by
  unfold lowerFunction
  exact lowerStmts_fold_good f.body.stmts 0 [] rfl h

/-- C2 (witness): a function whose body passes `"msg"` straight to a
call lowers to instructions with no stored or returned string. -/
theorem lowering_stores_no_strings_witness :
    noStoredStrings
      ⟨"f", .int, [], ⟨[.exprStmt (.call "printf" [.stringLiteral "msg"])]⟩⟩
      = true ∧
    (lowerFunction
      ⟨"f", .int, [], ⟨[.exprStmt (.call "printf" [.stringLiteral "msg"])]⟩⟩).instrs.all
      goodInstr = true :=
  ⟨by decide,
   lowering_stores_no_strings
     ⟨"f", .int, [], ⟨[.exprStmt (.call "printf" [.stringLiteral "msg"])]⟩⟩
     (by decide)⟩

/-! ### The analyzer completes a full pass (C4) -/

theorem pass1All_deltas (fs : List Function) :
    ∀ t : SymbolTable, (pass1All fs t).2 = (pass1DeltaList fs t).flatten := by
  induction fs with
  | nil => intro t; rfl
  | cons f rest ih =>
    intro t
    simp only [pass1All, pass1DeltaList, List.flatten_cons, ih]

theorem pass2All_deltas (fs : List Function) :
    ∀ t : SymbolTable, (pass2All fs t).2 = (pass2DeltaList fs t).flatten := by
  induction fs with
  | nil => intro t; rfl
  | cons f rest ih =>
    intro t
    simp only [pass2All, pass2DeltaList, List.flatten_cons, ih]

theorem pass1DeltaList_length (fs : List Function) :
    ∀ t : SymbolTable, (pass1DeltaList fs t).length = fs.length := by
  induction fs with
  | nil => intro t; rfl
  | cons f rest ih => intro t; simp [pass1DeltaList, ih]

theorem pass2DeltaList_length (fs : List Function) :
    ∀ t : SymbolTable, (pass2DeltaList fs t).length = fs.length := by
  induction fs with
  | nil => intro t; rfl
  | cons f rest ih => intro t; simp [pass2DeltaList, ih]

/-- C4: the analyzer always completes a full pass: it returns success
or a non-empty diagnostic list, and the returned list is exactly the
concatenation, in program order, of one pass-1 delta and one pass-2
delta per function — so when several functions each contain errors,
every function's diagnostics are present (no stop at the first
error). -/
theorem analyze_full_pass (p : Program) :
    (analyze p = .ok () ∨ ∃ l, analyze p = .error l ∧ l ≠ []) ∧
    analyzeErrors p =
      (pass1DeltaList p.functions SymbolTable.new).flatten ++
      (pass2DeltaList p.functions
        (pass1All p.functions SymbolTable.new).1).flatten ∧
    (pass1DeltaList p.functions SymbolTable.new).length =
      p.functions.length ∧
    (pass2DeltaList p.functions
      (pass1All p.functions SymbolTable.new).1).length =
      p.functions.length := by
  refine ⟨?_, ?_, pass1DeltaList_length _ _, pass2DeltaList_length _ _⟩
  · by_cases h : analyzeErrors p = []
    · left; simp [analyze, h]
    · right; exact ⟨analyzeErrors p, by simp [analyze, h], h⟩
  · show (pass1All p.functions SymbolTable.new).2 ++
      (pass2All p.functions (pass1All p.functions SymbolTable.new).1).2 = _
    rw [pass1All_deltas, pass2All_deltas]

/-! ### Counting duplicate-parameter diagnostics (C1) -/

theorem pairDup_filter_count (fn m : String) (e : SemanticError) :
    ∀ l : List (Ty × String),
    ((l.filterMap (fun q =>
      if m = q.2 then some (SemanticError.duplicateParam fn m) else none)).count e)
    = if SemanticError.duplicateParam fn m = e
      then (l.map (fun q => q.2)).count m else 0 := by
  intro l
  induction l with
  | nil => simp
  | cons q rest ih =>
    simp only [List.filterMap_cons, List.map_cons]
    by_cases hq : m = q.2
    · rw [if_pos hq, List.count_cons, ih, List.count_cons]
      by_cases he : SemanticError.duplicateParam fn m = e
      · rw [if_pos he, if_pos he]
        have h1 : (q.2 == m) = true := by simp [← hq]
        have h2 : (SemanticError.duplicateParam fn m == e) = true := by
          simp [he]
        rw [h1, h2]
      · rw [if_neg he, if_neg he]
        have h2 : (SemanticError.duplicateParam fn m == e) = false := by
          simp [he]
        rw [h2]
        simp
    · rw [if_neg hq, ih, List.count_cons]
      have h1 : (q.2 == m) = false := by
        simp only [beq_eq_false_iff_ne, ne_eq]
        exact fun hc => hq hc.symm
      rw [h1]
      simp

theorem pairDups_count (fn n : String) : ∀ params : List (Ty × String),
    (pairDups fn params).count (.duplicateParam fn n) =
      Nat.choose ((params.map (fun q => q.2)).count n) 2 := by
  intro params
  induction params with
  | nil => simp [pairDups]
  | cons q rest ih =>
    show ((rest.filterMap (fun r =>
        if q.2 = r.2 then some (SemanticError.duplicateParam fn q.2) else none))
        ++ pairDups fn rest).count (.duplicateParam fn n) = _
    rw [List.count_append, ih, pairDup_filter_count, List.map_cons,
      List.count_cons]
    by_cases hq : q.2 = n
    · have he : SemanticError.duplicateParam fn q.2 =
          SemanticError.duplicateParam fn n := by rw [hq]
      rw [if_pos he, hq]
      have h1 : (n == n) = true := by simp
      rw [h1]
      simp only [if_true]
      have h2 : ∀ c : Nat, (c + 1).choose 2 = c + c.choose 2 := by
        intro c
        simp [Nat.choose_succ_succ, Nat.choose_one_right]
      rw [h2]
    · have he : SemanticError.duplicateParam fn q.2 ≠
          SemanticError.duplicateParam fn n := by
        simp [hq]
      rw [if_neg he]
      have h1 : (q.2 == n) = false := by simp [hq]
      rw [h1]
      simp

theorem pairDups_mem (fn : String) : ∀ (params : List (Ty × String))
    (e : SemanticError), e ∈ pairDups fn params →
      ∃ m, e = .duplicateParam fn m := by
  intro params
  induction params with
  | nil => intro e he; simp [pairDups] at he
  | cons q rest ih =>
    intro e he
    have he2 : e ∈ (rest.filterMap (fun r =>
        if q.2 = r.2 then some (SemanticError.duplicateParam fn q.2) else none))
        ++ pairDups fn rest := he
    rcases List.mem_append.mp he2 with h | h
    · obtain ⟨a, -, ha⟩ := List.mem_filterMap.mp h
      by_cases hc : q.2 = a.2
      · rw [if_pos hc] at ha
        exact ⟨q.2, (Option.some.inj ha).symm⟩
      · rw [if_neg hc] at ha
        cases ha
    · exact ih e h

theorem pass1Func_delta_cases (t : SymbolTable) (f : Function) :
    (pass1Func t f).2 = pairDups f.name f.params ∨
    (pass1Func t f).2 =
      pairDups f.name f.params ++ [.duplicateFunction f.name] := by
  unfold pass1Func
  cases t.declareGlobalFunction
      ⟨f.name, f.returnType, f.params.map (fun p => p.1)⟩
  · right; rfl
  · left; rfl

theorem pass1Func_count_ne (t : SymbolTable) (f : Function)
    (fname n : String) (h : f.name ≠ fname) :
    ((pass1Func t f).2).count (.duplicateParam fname n) = 0 := by
  have hpair : (pairDups f.name f.params).count
      (.duplicateParam fname n) = 0 := by
    rw [List.count_eq_zero]
    intro hc
    obtain ⟨m, hm⟩ := pairDups_mem f.name f.params _ hc
    injection hm with h1 h2
    exact h h1.symm
  rcases pass1Func_delta_cases t f with hs | hs <;> rw [hs]
  · exact hpair
  · rw [List.count_append, hpair]
    simp

theorem pass1Func_count_self (t : SymbolTable) (f : Function) (n : String) :
    ((pass1Func t f).2).count (.duplicateParam f.name n) =
      Nat.choose ((f.params.map (fun q => q.2)).count n) 2 := by
  rcases pass1Func_delta_cases t f with hs | hs <;> rw [hs]
  · exact pairDups_count f.name n f.params
  · rw [List.count_append, pairDups_count]
    simp

theorem pass1All_count_zero (fname n : String) :
    ∀ (fs : List Function) (t : SymbolTable), (∀ g ∈ fs, g.name ≠ fname) →
      ((pass1All fs t).2).count (.duplicateParam fname n) = 0 := by
  intro fs
  induction fs with
  | nil => intro t _; rfl
  | cons g rest ih =>
    intro t hall
    show ((pass1Func t g).2 ++
      (pass1All rest (pass1Func t g).1).2).count _ = 0
    rw [List.count_append,
      pass1Func_count_ne t g fname n (hall g (List.mem_cons_self _ _)),
      ih _ (fun x hx => hall x (List.mem_cons_of_mem _ hx))]

theorem pass1All_count_split (f : Function) (n : String) :
    ∀ (pre : List Function) (post : List Function) (t : SymbolTable),
    (∀ g ∈ pre, g.name ≠ f.name) → (∀ g ∈ post, g.name ≠ f.name) →
    ((pass1All (pre ++ f :: post) t).2).count (.duplicateParam f.name n) =
      Nat.choose ((f.params.map (fun q => q.2)).count n) 2 := by
  intro pre
  induction pre with
  | nil =>
    intro post t _ hpost
    show ((pass1Func t f).2 ++
      (pass1All post (pass1Func t f).1).2).count _ = _
    rw [List.count_append, pass1Func_count_self,
      pass1All_count_zero f.name n post _ hpost]
    omega
  | cons g rest ih =>
    intro post t hpre hpost
    show ((pass1Func t g).2 ++
      (pass1All (rest ++ f :: post) (pass1Func t g).1).2).count _ = _
    rw [List.count_append,
      pass1Func_count_ne t g _ n (hpre g (List.mem_cons_self _ _)),
      ih post _ (fun x hx => hpre x (List.mem_cons_of_mem _ hx)) hpost]
    omega

mutual

theorem analyzeExpr_no_dupParam : ∀ (e : Expr) (fn : String)
    (t : SymbolTable) (a b : String),
    SemanticError.duplicateParam a b ∉ analyzeExpr fn t e
  | .number _, fn, t, a, b => by simp [analyzeExpr]
  | .floatNumber _, fn, t, a, b => by simp [analyzeExpr]
  | .charLiteral _, fn, t, a, b => by simp [analyzeExpr]
  | .stringLiteral _, fn, t, a, b => by simp [analyzeExpr]
  | .ident name, fn, t, a, b => by
    unfold analyzeExpr
    cases t.lookup name <;> simp
  | .unary op e, fn, t, a, b => by
    simpa [analyzeExpr] using analyzeExpr_no_dupParam e fn t a b
  | .binary op l r, fn, t, a, b => by
    have hl := analyzeExpr_no_dupParam l fn t a b
    have hr := analyzeExpr_no_dupParam r fn t a b
    simp only [analyzeExpr, List.mem_append]
    rintro (h | h)
    · exact hl h
    · exact hr h
  | .assign name value, fn, t, a, b => by
    have hv := analyzeExpr_no_dupParam value fn t a b
    simp only [analyzeExpr, List.mem_append]
    rintro (h | h)
    · cases hx : t.lookup name <;> rw [hx] at h <;> simp at h
    · exact hv h
  | .call name args, fn, t, a, b => by
    have ha := analyzeArgs_no_dupParam args fn t a b
    simp only [analyzeExpr, List.mem_append]
    rintro (h | h)
    · exact ha h
    · cases hx : t.findGlobalFunction name <;> rw [hx] at h
      · simp at h
      · split at h <;> simp at h

theorem analyzeArgs_no_dupParam : ∀ (args : List Expr) (fn : String)
    (t : SymbolTable) (a b : String),
    SemanticError.duplicateParam a b ∉ analyzeArgs fn t args
  | [], fn, t, a, b => by simp [analyzeArgs]
  | e :: rest, fn, t, a, b => by
    have h1 := analyzeExpr_no_dupParam e fn t a b
    have h2 := analyzeArgs_no_dupParam rest fn t a b
    simp only [analyzeArgs, List.mem_append]
    rintro (h | h)
    · exact h1 h
    · exact h2 h

end

theorem analyzeStmt_no_dupParam (s : Stmt) (fn : String) (t : SymbolTable)
    (a b : String) :
    SemanticError.duplicateParam a b ∉ (analyzeStmt fn t s).2 := by
  cases s with
  | varDecl ty name value =>
    cases hd : t.declareLocalVar name ty with
    | none => simp [analyzeStmt, hd]
    | some t2 =>
      simp only [analyzeStmt, hd, List.mem_append]
      rintro (h | h)
      · exact analyzeExpr_no_dupParam value fn t2 a b h
      · cases hx : exprType t2 value <;> rw [hx] at h
        · simp at h
        · split at h <;> simp at h
  | exprStmt e =>
    exact analyzeExpr_no_dupParam e fn t a b
  | ret e =>
    unfold analyzeStmt
    simp only [List.mem_append]
    rintro (h | h)
    · exact analyzeExpr_no_dupParam e fn t a b h
    · cases hx : t.findGlobalFunction fn <;> rw [hx] at h
      · simp at h
      · cases hy : exprType t e <;> rw [hy] at h
        · simp at h
        · split at h <;> simp at h

theorem analyzeStmts_count_zero (fn : String) (a b : String) :
    ∀ (stmts : List Stmt) (t : SymbolTable),
    ((analyzeStmts fn stmts t).2).count (.duplicateParam a b) = 0 := by
  intro stmts
  induction stmts with
  | nil => intro t; rfl
  | cons s rest ih =>
    intro t
    show ((analyzeStmt fn t s).2 ++
      (analyzeStmts fn rest (analyzeStmt fn t s).1).2).count _ = 0
    rw [List.count_append, ih,
      List.count_eq_zero.mpr (analyzeStmt_no_dupParam s fn t a b)]

/-! ### Symbol table effects of parameter declaration -/

theorem declareParam_none_iff (t : SymbolTable) (name : String) (ty : Ty) :
    t.declareParam name ty = none ↔
      (lookupName t.currentScope.symbols name).isSome = true := by
  unfold SymbolTable.declareParam
  cases h : lookupName t.currentScope.symbols name <;> simp [h]

theorem declareParam_some_effect (t : SymbolTable) (name : String)
    (ty : Ty) (t2 : SymbolTable) (hcur : t.current < t.scopes.length)
    (h : t.declareParam name ty = some t2) :
    t2.current = t.current ∧ t2.scopes.length = t.scopes.length ∧
    t2.currentScope.symbols =
      (name, .param name ty) :: t.currentScope.symbols := by
  unfold SymbolTable.declareParam at h
  cases hl : lookupName t.currentScope.symbols name with
  | some v => rw [hl] at h; simp at h
  | none =>
    rw [hl] at h
    have ht2 : t2 = ⟨t.scopes.set t.current
        ⟨(name, .param name ty) :: t.currentScope.symbols,
         t.currentScope.parent⟩, t.current⟩ := (Option.some.inj h).symm
    subst ht2
    refine ⟨rfl, List.length_set .., ?_⟩
    show (SymbolTable.currentScope _).symbols = _
    unfold SymbolTable.currentScope
    simp only [List.getD_eq_getElem?_getD]
    rw [List.getElem?_set_self (by simpa using hcur)]
    rfl

theorem declareParams_count (fname n : String) :
    ∀ (params : List (Ty × String)) (t : SymbolTable),
    t.current < t.scopes.length →
    ((declareParams fname params t).2).count (.duplicateParam fname n) =
      (if (lookupName t.currentScope.symbols n).isSome = true
       then (params.map (fun q => q.2)).count n
       else (params.map (fun q => q.2)).count n - 1) := by
  intro params
  induction params with
  | nil =>
    intro t hcur
    unfold declareParams
    split_ifs <;> simp
  | cons q rest ih =>
    intro t hcur
    unfold declareParams
    cases hd : t.declareParam q.2 q.1 with
    | some t2 =>
      obtain ⟨hc, hlen, hsym⟩ :=
        declareParam_some_effect t q.2 q.1 t2 hcur hd
      have hcur2 : t2.current < t2.scopes.length := by
        rw [hc, hlen]; exact hcur
      have hq : lookupName t.currentScope.symbols q.2 = none := by
        cases hl2 : lookupName t.currentScope.symbols q.2 with
        | none => rfl
        | some v =>
          have : t.declareParam q.2 q.1 = none :=
            (declareParam_none_iff t q.2 q.1).mpr (by simp [hl2])
          rw [this] at hd
          cases hd
      simp only
      rw [ih t2 hcur2, hsym]
      by_cases hqn : q.2 = n
      · subst hqn
        rw [hq]
        simp only [lookupName, if_pos rfl, Option.isSome_some, if_true,
          Option.isSome_none, Bool.false_eq_true, if_false,
          List.map_cons, List.count_cons, beq_self_eq_true]
        omega
      · have hlk2 : lookupName ((q.2, Symbol.param q.2 q.1) ::
            t.currentScope.symbols) n = lookupName t.currentScope.symbols n := by
          simp [lookupName, hqn]
        rw [hlk2]
        have hcnt : ((q :: rest).map (fun r => r.2)).count n =
            (rest.map (fun r => r.2)).count n := by
          simp [List.count_cons, hqn]
        rw [hcnt]
    | none =>
      have hq : (lookupName t.currentScope.symbols q.2).isSome = true :=
        (declareParam_none_iff t q.2 q.1).mp hd
      simp only
      rw [List.count_cons, ih t hcur]
      by_cases hqn : q.2 = n
      · subst hqn
        rw [if_pos hq]
        have hb : (SemanticError.duplicateParam fname q.2 ==
            SemanticError.duplicateParam fname q.2) = true := by simp
        rw [hb]
        simp only [List.map_cons, List.count_cons, beq_self_eq_true,
          if_true, if_pos hq]
      · have hb : (SemanticError.duplicateParam fname q.2 ==
            SemanticError.duplicateParam fname n) = false := by simp [hqn]
        rw [hb]
        have hcnt : ((q :: rest).map (fun r => r.2)).count n =
            (rest.map (fun r => r.2)).count n := by
          simp [List.count_cons, hqn]
        rw [hcnt]
        simp

theorem declareParams_count_ne (fname fname2 n : String)
    (hne : fname ≠ fname2) :
    ∀ (params : List (Ty × String)) (t : SymbolTable),
    ((declareParams fname params t).2).count (.duplicateParam fname2 n) = 0 := by
  intro params
  induction params with
  | nil => intro t; rfl
  | cons q rest ih =>
    intro t
    unfold declareParams
    cases hd : t.declareParam q.2 q.1 with
    | some t2 => exact ih t2
    | none =>
      simp only
      rw [List.count_cons, ih t]
      have hb : (SemanticError.duplicateParam fname q.2 ==
          SemanticError.duplicateParam fname2 n) = false := by
        simp only [beq_eq_false_iff_ne, ne_eq, SemanticError.duplicateParam.injEq,
          not_and]
        intro hc
        exact absurd hc hne
      rw [hb]
      simp

theorem enterScope_currentScope (t : SymbolTable) :
    (t.enterScope).currentScope = ⟨[], some t.current⟩ := by
  unfold SymbolTable.enterScope SymbolTable.currentScope
  simp only [List.getD_eq_getElem?_getD, List.getElem?_concat_length,
    Option.getD_some]

theorem enterScope_inbounds (t : SymbolTable) :
    (t.enterScope).current < (t.enterScope).scopes.length := by
  unfold SymbolTable.enterScope
  simp

theorem analyzeFunc_count_self (t : SymbolTable) (f : Function)
    (n : String) :
    ((analyzeFunc t f).2).count (.duplicateParam f.name n) =
      (f.params.map (fun q => q.2)).count n - 1 := by
  unfold analyzeFunc
  simp only [List.count_append]
  rw [declareParams_count f.name n f.params t.enterScope
    (enterScope_inbounds t), enterScope_currentScope,
    analyzeStmts_count_zero]
  simp [lookupName]

theorem analyzeFunc_count_ne (t : SymbolTable) (f : Function)
    (fname n : String) (h : f.name ≠ fname) :
    ((analyzeFunc t f).2).count (.duplicateParam fname n) = 0 := by
  unfold analyzeFunc
  simp only [List.count_append]
  rw [declareParams_count_ne f.name fname n h, analyzeStmts_count_zero]

theorem pass2All_count_zero (fname n : String) :
    ∀ (fs : List Function) (t : SymbolTable), (∀ g ∈ fs, g.name ≠ fname) →
      ((pass2All fs t).2).count (.duplicateParam fname n) = 0 := by
  intro fs
  induction fs with
  | nil => intro t _; rfl
  | cons g rest ih =>
    intro t hall
    show ((analyzeFunc t g).2 ++
      (pass2All rest (analyzeFunc t g).1).2).count _ = 0
    rw [List.count_append,
      analyzeFunc_count_ne t g fname n (hall g (List.mem_cons_self _ _)),
      ih _ (fun x hx => hall x (List.mem_cons_of_mem _ hx))]

theorem pass2All_count_split (f : Function) (n : String) :
    ∀ (pre : List Function) (post : List Function) (t : SymbolTable),
    (∀ g ∈ pre, g.name ≠ f.name) → (∀ g ∈ post, g.name ≠ f.name) →
    ((pass2All (pre ++ f :: post) t).2).count (.duplicateParam f.name n) =
      (f.params.map (fun q => q.2)).count n - 1 := by
  intro pre
  induction pre with
  | nil =>
    intro post t _ hpost
    show ((analyzeFunc t f).2 ++
      (pass2All post (analyzeFunc t f).1).2).count _ = _
    rw [List.count_append, analyzeFunc_count_self,
      pass2All_count_zero f.name n post _ hpost]
    omega
  | cons g rest ih =>
    intro post t hpre hpost
    show ((analyzeFunc t g).2 ++
      (pass2All (rest ++ f :: post) (analyzeFunc t g).1).2).count _ = _
    rw [List.count_append,
      analyzeFunc_count_ne t g _ n (hpre g (List.mem_cons_self _ _)),
      ih post _ (fun x hx => hpre x (List.mem_cons_of_mem _ hx)) hpost]
    omega

/-- C1 (amended): in a program where `f` is the only function bearing
its name and `f`'s parameter list contains the name `n` exactly twice,
the analyzer reports `DuplicateParameter` for `(f, n)` exactly twice:
once from the pass-1 pairwise check and once more when pass-2 declares
the second occurrence into the fresh function scope. -/
theorem dup_param_reported_exactly_twice (p : Program) (f : Function)
    (n : String) (hmem : f ∈ p.functions)
    (huniq : p.functions.countP (fun g => g.name == f.name) = 1)
    (hcnt : (f.params.map (fun q => q.2)).count n = 2) :
    (analyzeErrors p).count (.duplicateParam f.name n) = 2 := by
  obtain ⟨pre, post, hsplit⟩ := List.append_of_mem hmem
  have hpre0 : (pre.countP (fun g => g.name == f.name)) = 0 ∧
      (post.countP (fun g => g.name == f.name)) = 0 := by
    rw [hsplit, List.countP_append, List.countP_cons] at huniq
    simp only [beq_self_eq_true, if_true] at huniq
    omega
  have hpre : ∀ g ∈ pre, g.name ≠ f.name := by
    intro g hg
    have := List.countP_eq_zero.mp hpre0.1 g hg
    simpa using this
  have hpost : ∀ g ∈ post, g.name ≠ f.name := by
    intro g hg
    have := List.countP_eq_zero.mp hpre0.2 g hg
    simpa using this
  show ((pass1All p.functions SymbolTable.new).2 ++
    (pass2All p.functions (pass1All p.functions SymbolTable.new).1).2).count
      _ = 2
  rw [List.count_append]
  rw [hsplit, pass1All_count_split f n pre post _ hpre hpost,
    pass2All_count_split f n pre post _ hpre hpost, hcnt]
  decide

/-- C1 (amended, witness): the program whose single function `g` has
parameters `(int a, int a)` yields exactly two `DuplicateParameter`
diagnostics for `(g, a)`. -/
theorem dup_param_reported_exactly_twice_witness :
    (dupParamFunction ∈ dupParamProgram.functions ∧
     dupParamProgram.functions.countP
       (fun g => g.name == dupParamFunction.name) = 1 ∧
     (dupParamFunction.params.map (fun q => q.2)).count "a" = 2) ∧
    (analyzeErrors dupParamProgram).count
      (.duplicateParam dupParamFunction.name "a") = 2 :=
  ⟨⟨List.mem_cons_self _ _, by decide, by decide⟩,
   dup_param_reported_exactly_twice dupParamProgram dupParamFunction "a"
     (List.mem_cons_self _ _) (by decide) (by decide)⟩

end MiniC
